import Mathlib

/-!
Verification development for the dependency-extraction and dependency-resolution
library of ember-caluma (`addon/lib/dependencies.js`).

The source operates on the AST produced by the external jexl parser
(`getAST`/`getTransforms` from `ember-caluma/utils/jexl`) and on the external
document/field data model (`document.findField`, `field.value`).  Those
collaborators are modelled here from the specification; the functions
`getDependenciesFromJexl`, `findField`, `nestedDependencyParents` and
`dependencies` are translated from the source file itself.

Modelling conventions:
* JavaScript property access on an AST node (`node.value`, `node.name`) yields
  `undefined` when the node has no such property; we model such accesses with
  `Option String` (`none` = `undefined`).
* JavaScript template-literal interpolation coerces `undefined` to the text
  "undefined"; `jsString` models that coercion.
* A thrown JavaScript error (the Ember `assert` on a missing field, or a
  `TypeError` from calling a method of `undefined`) is modelled with `Except`.
* Array combinators (`map`, `flatMap` with early throw) are modelled with the
  sequential `mapME` below; `[...new Set(list)]` is modelled with `jsSetDedup`.
-/

namespace Caluma

/-- A jexl expression AST node, as consumed by the dependency extractor.  After
compilation, a jexl transform application such as `"bar"|answer` is a
`FunctionCall` node whose first argument is its subject, so `functionCall`
carries the subject inside `args`.  Other node kinds (binary operators,
literals, identifiers) are opaque recursion targets for the walker. -/
inductive JexlNode where
  | literal (value : String)
  | identifier (value : String)
  | binaryExpression (op : String) (left right : JexlNode)
  | functionCall (name : String) (args : List JexlNode)

/-- JavaScript `node.value`: present on literals and identifiers, `undefined`
on other node kinds. -/
def JexlNode.value? : JexlNode → Option String
  | .literal v => some v
  | .identifier v => some v
  | _ => none

/-- JavaScript `node.name`: present on function-call (transform) nodes. -/
def JexlNode.name? : JexlNode → Option String
  | .functionCall n _ => some n
  | _ => none

/-- JavaScript `node.args`: the argument list of a function-call node. -/
def JexlNode.args : JexlNode → List JexlNode
  | .functionCall _ as => as
  | _ => []

/-- JavaScript `node.type === "FunctionCall"`. -/
def JexlNode.isFunctionCall : JexlNode → Bool
  | .functionCall _ _ => true
  | _ => false

mutual

/-- Modelled from the spec: `getTransforms` from `ember-caluma/utils/jexl` is
not under `src/`.  Per spec §4.1 it returns every transform (function-call)
node reachable from the root, via subject or any argument, at any depth, in
pre-order (a node before its arguments, children in source order). -/
def getTransforms : JexlNode → List JexlNode
  | .literal _ => []
  | .identifier _ => []
  | .binaryExpression _ l r => getTransforms l ++ getTransforms r
  | .functionCall n as => .functionCall n as :: getTransformsList as

/-- Pre-order collection of transforms of a list of sibling nodes. -/
def getTransformsList : List JexlNode → List JexlNode
  | [] => []
  | n :: ns => getTransforms n ++ getTransformsList ns

end

/-- Worker for `jsSetDedup`: keeps elements not seen before, in order. -/
def dedupGo (seen : List (Option String)) : List (Option String) → List (Option String)
  | [] => []
  | x :: xs => if x ∈ seen then dedupGo seen xs else x :: dedupGo (x :: seen) xs

/-- `[...new Set(list)]` in JavaScript: drop duplicates, keeping the first
occurrence of each element, preserving insertion order. -/
def jsSetDedup (l : List (Option String)) : List (Option String) := dedupGo [] l

/-- JavaScript template-literal coercion of a possibly-`undefined` string. -/
def jsString : Option String → String
  | some s => s
  | none => "undefined"

/-- `transform.args[0].value` — the raw slug value read from an `answer`
transform (`undefined`, i.e. `none`, when the first argument is not a
literal). -/
def directValue (t : JexlNode) : Option String :=
  (t.args.get? 0).bind JexlNode.value?

/-- The template string `` `${transform.args[0].args[0].value}.${transform.args[1].value}` ``
built for a `mapby` transform. -/
def nestedValue (t : JexlNode) : String :=
  jsString ((t.args.get? 0).bind fun a => (a.args.get? 0).bind JexlNode.value?)
    ++ "." ++ jsString ((t.args.get? 1).bind JexlNode.value?)

/-- The filter predicate for `answerTransforms`:
`transform.name === "answer"`. -/
def isAnswer (t : JexlNode) : Bool :=
  t.name? == some "answer"

/-- The filter predicate for `mapbyTransforms`: `transform.name === "mapby"`
and its first argument is itself a `FunctionCall` node named `"answer"`. -/
def isAnswerMapby (t : JexlNode) : Bool :=
  t.name? == some "mapby" &&
    (match t.args.get? 0 with
     | some a => a.isFunctionCall && a.name? == some "answer"
     | none => false)

/-- `answerTransforms` from `getDependenciesFromJexl`. -/
def answerTransforms (root : JexlNode) : List JexlNode :=
  (getTransforms root).filter isAnswer

/-- `mapbyTransforms` from `getDependenciesFromJexl`. -/
def mapbyTransforms (root : JexlNode) : List JexlNode :=
  (getTransforms root).filter isAnswerMapby

/-- `getDependenciesFromJexl` from `addon/lib/dependencies.js`, taking the
already-parsed AST (the source calls the external `getAST(jexl, expression)`
first; parsing is out of scope per spec §1).  Direct entries are the raw
`args[0].value` of every `answer` transform; nested entries are the rendered
`"parent.child"` strings of every qualifying `mapby` transform; the
concatenation is deduplicated with JavaScript `Set` semantics. -/
def getDependenciesFromJexl (root : JexlNode) : List (Option String) :=
  jsSetDedup
    ((answerTransforms root).map directValue
      ++ (mapbyTransforms root).map (fun t => some (nestedValue t)))

/-- The AST of `"foo"|answer in "bar"|answer|mapby("column")` — the canonical
example from the source doc comment and the spec. -/
def astExample : JexlNode :=
  .binaryExpression "in"
    (.functionCall "answer" [.literal "foo"])
    (.functionCall "mapby"
      [.functionCall "answer" [.literal "bar"], .literal "column"])

/-- The mapby node of `astExample`. -/
def mapbyExample : JexlNode :=
  .functionCall "mapby"
    [.functionCall "answer" [.literal "bar"], .literal "column"]

/-- The AST of `"bar"|answer|mapby("column") in "foo"|answer` — the canonical
example with the two operands swapped, so that the mapby occurs first in the
expression. -/
def astSwapped : JexlNode :=
  .binaryExpression "in"
    (.functionCall "mapby"
      [.functionCall "answer" [.literal "bar"], .literal "column"])
    (.functionCall "answer" [.literal "foo"])

/-- The AST of `"foo"|answer in "foo"|answer` — an expression referencing
`"foo"|answer` twice. -/
def astFooTwice : JexlNode :=
  .binaryExpression "in"
    (.functionCall "answer" [.literal "foo"])
    (.functionCall "answer" [.literal "foo"])

/-- The AST of `"a"|answer in "x"|mapby("c")` — a mapby whose first argument
is not an `answer` transform. -/
def astPlainMapby : JexlNode :=
  .binaryExpression "in"
    (.functionCall "answer" [.literal "a"])
    (.functionCall "mapby" [.literal "x", .literal "c"])

/-- Modelled from the spec: the identifier sequence in first-occurrence order
as discovered in the expression (spec §4.2 step 4, read with the discovery
order of the walk): each collected transform contributes its identifier at its
own position in the traversal, and the whole sequence is then deduplicated.
This definition follows the spec text and exists only to compare the
implementation's output order against it. -/
def specOrderedDeps (root : JexlNode) : List (Option String) :=
  jsSetDedup
    ((getTransforms root).filterMap fun t =>
      if isAnswer t then some (directValue t)
      else if isAnswerMapby t then some (some (nestedValue t)) else none)

mutual

/-- Modelled from the spec: the external document data model (spec §3, §6).
A document carries an identity (`uuid`) and a collection of fields; a field of
a table question holds row documents as its value. -/
inductive Document where
  | mk (uuid : String) (fields : List Field)

/-- Modelled from the spec: a field of a document; `questionSlug` is the slug
`findField` looks fields up by, `value` is the field's current value. -/
inductive Field where
  | mk (questionSlug : String) (value : FieldValue)

/-- Modelled from the spec: a field value is absent (JavaScript
`null`/`undefined`), a scalar, or — for a table field — an ordered sequence of
row documents. -/
inductive FieldValue where
  | null
  | scalar (s : String)
  | rows (rs : List Document)

end

/-- The document's identity. -/
def Document.uuid : Document → String
  | .mk u _ => u

/-- The document's field collection. -/
def Document.fields : Document → List Field
  | .mk _ fs => fs

/-- The field's question slug. -/
def Field.questionSlug : Field → String
  | .mk s _ => s

/-- The field's value. -/
def Field.value : Field → FieldValue
  | .mk _ v => v

/-- Modelled from the spec: `document.findField(slug)` of the external
document interface (spec §6) — look a field up by slug, or report it absent. -/
def Document.findField (d : Document) (slug : String) : Option Field :=
  d.fields.find? (fun f => f.questionSlug == slug)

/-- JavaScript truthiness of a possibly-absent string (`undefined`/`null` and
the empty string are falsy). -/
def jsTruthyStr : Option String → Bool
  | none => false
  | some s => !(s == "")

/-- JavaScript truthiness of a field value: `null`/`undefined` and the empty
string are falsy; an array — even an empty one — is truthy. -/
def FieldValue.truthy : FieldValue → Bool
  | .null => false
  | .scalar s => !(s == "")
  | .rows _ => true

/-- Splitting a character list at every dot, JavaScript
`String.prototype.split(".")` style: the result always has at least one
(possibly empty) segment. -/
def splitSegs : List Char → List (List Char)
  | [] => [[]]
  | c :: cs =>
    if c = '.' then [] :: splitSegs cs
    else
      match splitSegs cs with
      | seg :: rest => (c :: seg) :: rest
      | [] => [[c]]

/-- JavaScript `slug.split(".")`. -/
def jsSplitDot (s : String) : List String :=
  (splitSegs s.data).map String.mk

/-- The errors the resolution layer can throw: the Ember `assert` raised by
`findField` (carrying the missing slug, the document's `uuid` and the
expression text interpolated into its message), and a JavaScript `TypeError`
from invoking a method on `undefined` or on a non-array value. -/
inductive DepError where
  | fieldNotFound (slug : String) (uuid : String) (expression : String)
  | typeError
deriving DecidableEq

/-- Sequential `Except`-returning map over a list: JavaScript `map`/`flatMap`
callbacks run left to right and the first thrown error aborts the loop. -/
def mapME (f : α → Except ε β) : List α → Except ε (List β)
  | [] => .ok []
  | a :: l => do
    let b ← f a
    let bs ← mapME f l
    pure (b :: bs)

/-- `findField` from `addon/lib/dependencies.js`: find a field in a document
or throw an informative error (the Ember `assert` fires when
`document.findField` returned nothing). -/
def findField (document : Document) (slug : String) (expression : String) :
    Except DepError Field :=
  match Document.findField document slug with
  | some f => .ok f
  | none => .error (.fieldNotFound slug document.uuid expression)

/-- The `flatMap` callback inside `dependencies` from
`addon/lib/dependencies.js`, for one extracted slug.  A `none` slug models a
JavaScript `undefined` entry (calling `.split` on it throws).  The returned
list holds `Option Field` because the callback can return `null` (for a
direct slug in only-nested-parents mode). -/
def resolveSlug (doc : Document) (expression : String) (onlyNestedParents : Bool) :
    Option String → Except DepError (List (Option Field))
  | none => .error .typeError
  | some slug =>
    let parts := jsSplitDot slug
    let fieldSlug := parts.head?.getD ""
    let nestedSlug : Option String := parts[1]?
    if onlyNestedParents && !(jsTruthyStr nestedSlug) then .ok [none]
    else do
      let field ← findField doc fieldSlug expression
      if !onlyNestedParents && jsTruthyStr nestedSlug && field.value.truthy then
        match field.value with
        | .rows rs => do
          let children ← mapME (fun row => findField row (nestedSlug.getD "") expression) rs
          pure (some field :: children.map some)
        | _ => .error .typeError
      else pure [some field]

/-- The body of the computed property returned by `dependencies` from
`addon/lib/dependencies.js`.  `getAST` stands for the external jexl parser
(`this.document.jexl` and `getAST` of `ember-caluma/utils/jexl`); `expression`
is the value read from the expression path (`none` models
`null`/`undefined`).  An absent or empty expression short-circuits to `[]`;
otherwise every extracted slug is resolved and the flattened result is
filtered with `filter(Boolean)`. -/
def dependencies (doc : Document) (getAST : String → JexlNode)
    (expression : Option String) (onlyNestedParents : Bool) :
    Except DepError (List (Option Field)) :=
  match expression with
  | none => .ok []
  | some expr =>
    if expr = "" then .ok []
    else do
      let slugs := getDependenciesFromJexl (getAST expr)
      let resolved ← mapME (resolveSlug doc expr onlyNestedParents) slugs
      pure (resolved.flatten.filter (fun o => o.isSome))

/-- `nestedDependencyParents` from `addon/lib/dependencies.js`:
`dependencies(expressionPath, { onlyNestedParents: true })`. -/
def nestedDependencyParents (doc : Document) (getAST : String → JexlNode)
    (expression : Option String) : Except DepError (List (Option Field)) :=
  dependencies doc getAST expression true

/-- The resolved `column` field of the first example row. -/
def fieldColumn1 : Field := .mk "column" (.scalar "c1")

/-- The resolved `column` field of the second example row. -/
def fieldColumn2 : Field := .mk "column" (.scalar "c2")

/-- The resolved `column` field of the third example row. -/
def fieldColumn3 : Field := .mk "column" (.scalar "c3")

/-- The `foo` field of the example document. -/
def fieldFoo : Field := .mk "foo" (.scalar "v")

/-- The rows of the example `bar` table field: three row documents, each
containing a `column` field. -/
def exampleRows : List Document :=
  [.mk "row1" [fieldColumn1], .mk "row2" [fieldColumn2],
   .mk "row3" [fieldColumn3]]

/-- The `bar` table field of the example document, holding three rows that
each contain a `column` field. -/
def fieldBar : Field := .mk "bar" (.rows exampleRows)

/-- The example document: a `foo` scalar field and a `bar` table field with
three rows. -/
def docExample : Document := .mk "doc-1" [fieldFoo, fieldBar]

/-- A table field with an absent (null) value. -/
def fieldTblNull : Field := .mk "tbl" .null

/-- A document holding only a table field with an absent value. -/
def docNull : Document := .mk "doc-2" [fieldTblNull]

/-- The field sequence `dependencies` computes for `astExample` against
`docExample` in All mode (note `fieldBar` occurs twice: once for the direct
slug `bar` and once as the nested parent of `bar.column`). -/
def exampleDeps : List (Option Field) :=
  [some fieldFoo, some fieldBar, some fieldBar, some fieldColumn1,
   some fieldColumn2, some fieldColumn3]

/-- Membership in `dedupGo`: an element of the output is an element of the
input that was not already seen. -/
theorem mem_dedupGo :
    ∀ (l seen : List (Option String)) (a : Option String),
      a ∈ dedupGo seen l ↔ a ∈ l ∧ a ∉ seen
  | [], seen, a => by simp [dedupGo]
  | x :: xs, seen, a => by
    by_cases hx : x ∈ seen
    · rw [dedupGo, if_pos hx, mem_dedupGo xs seen a]
      constructor
      · rintro ⟨h1, h2⟩
        exact ⟨List.mem_cons_of_mem _ h1, h2⟩
      · rintro ⟨h1, h2⟩
        rcases List.mem_cons.mp h1 with rfl | h1
        · exact absurd hx h2
        · exact ⟨h1, h2⟩
    · rw [dedupGo, if_neg hx]
      simp only [List.mem_cons]
      rw [mem_dedupGo xs (x :: seen) a]
      constructor
      · rintro (rfl | ⟨h1, h2⟩)
        · exact ⟨Or.inl rfl, hx⟩
        · exact ⟨Or.inr h1, fun hs => h2 (List.mem_cons_of_mem _ hs)⟩
      · rintro ⟨rfl | h1, h2⟩
        · exact Or.inl rfl
        · by_cases hax : a = x
          · exact Or.inl hax
          · exact Or.inr ⟨h1, fun hs => (List.mem_cons.mp hs).elim hax h2⟩

/-- The output of `dedupGo` has no duplicates (relative to what was seen). -/
theorem nodup_dedupGo :
    ∀ (l seen : List (Option String)), (dedupGo seen l).Nodup
  | [], _ => by simp [dedupGo]
  | x :: xs, seen => by
    by_cases hx : x ∈ seen
    · rw [dedupGo, if_pos hx]
      exact nodup_dedupGo xs seen
    · rw [dedupGo, if_neg hx, List.nodup_cons]
      refine ⟨fun hmem => ?_, nodup_dedupGo xs (x :: seen)⟩
      exact ((mem_dedupGo xs (x :: seen) x).mp hmem).2 (List.mem_cons_self x seen)

/-- Membership in `jsSetDedup` is membership in the input list. -/
theorem mem_jsSetDedup (l : List (Option String)) (a : Option String) :
    a ∈ jsSetDedup l ↔ a ∈ l := by
  rw [jsSetDedup, mem_dedupGo]
  simp

/-- `jsSetDedup` returns a list without duplicates. -/
theorem nodup_jsSetDedup (l : List (Option String)) : (jsSetDedup l).Nodup :=
  nodup_dedupGo l []

/-- A node is in `getTransformsList l` iff it is in `getTransforms a` for some
`a` in `l`. -/
theorem mem_getTransformsList (t : JexlNode) :
    ∀ (l : List JexlNode),
      t ∈ getTransformsList l ↔ ∃ a ∈ l, t ∈ getTransforms a
  | [] => by simp [getTransformsList]
  | n :: ns => by
    rw [getTransformsList]
    simp only [List.mem_append, mem_getTransformsList t ns, List.mem_cons]
    constructor
    · rintro (h | ⟨a, ha, hta⟩)
      · exact ⟨n, Or.inl rfl, h⟩
      · exact ⟨a, Or.inr ha, hta⟩
    · rintro ⟨a, rfl | ha, hta⟩
      · exact Or.inl hta
      · exact Or.inr ⟨a, ha, hta⟩

/-- A function-call node is among its own transforms. -/
theorem self_mem_getTransforms (a : JexlNode) (h : a.isFunctionCall = true) :
    a ∈ getTransforms a := by
  cases a with
  | functionCall n as => rw [getTransforms]; exact List.mem_cons_self _ _
  | literal v => simp [JexlNode.isFunctionCall] at h
  | identifier v => simp [JexlNode.isFunctionCall] at h
  | binaryExpression op l r => simp [JexlNode.isFunctionCall] at h

mutual

/-- A function-call argument of a collected transform is itself collected:
the walker reaches every transform at any depth (spec §4.1). -/
theorem argClosure :
    ∀ (n t a : JexlNode), t ∈ getTransforms n → a ∈ t.args →
      a.isFunctionCall = true → a ∈ getTransforms n
  | .literal _, t, a => by
    intro ht _ _
    simp [getTransforms] at ht
  | .identifier _, t, a => by
    intro ht _ _
    simp [getTransforms] at ht
  | .binaryExpression op l r, t, a => by
    intro ht hm hf
    rw [getTransforms, List.mem_append] at ht ⊢
    rcases ht with h | h
    · exact Or.inl (argClosure l t a h hm hf)
    · exact Or.inr (argClosure r t a h hm hf)
  | .functionCall nm as, t, a => by
    intro ht hm hf
    rw [getTransforms, List.mem_cons] at ht ⊢
    rcases ht with rfl | h
    · right
      have hmem : a ∈ as := by simpa [JexlNode.args] using hm
      exact (mem_getTransformsList a as).mpr
        ⟨a, hmem, self_mem_getTransforms a hf⟩
    · exact Or.inr (argClosureList as t a h hm hf)

/-- List version of `argClosure`, following the mutual recursion of the
walker. -/
theorem argClosureList :
    ∀ (l : List JexlNode) (t a : JexlNode), t ∈ getTransformsList l →
      a ∈ t.args → a.isFunctionCall = true → a ∈ getTransformsList l
  | [], t, a => by
    intro ht _ _
    simp [getTransformsList] at ht
  | n :: ns, t, a => by
    intro ht hm hf
    rw [getTransformsList, List.mem_append] at ht ⊢
    rcases ht with h | h
    · exact Or.inl (argClosure n t a h hm hf)
    · exact Or.inr (argClosureList ns t a h hm hf)

end

/-- If some element of the list makes the callback throw, the mapped loop as
a whole throws (the first error encountered). -/
theorem mapME_error_of_mem {α ε β : Type} (f : α → Except ε β) :
    ∀ (l : List α) (x : α), x ∈ l → (∃ e, f x = .error e) →
      ∃ e', mapME f l = .error e'
  | [], x => by
    intro hx _
    simp at hx
  | a :: l, x => by
    intro hx ⟨e, he⟩
    rcases List.mem_cons.mp hx with rfl | hx'
    · exact ⟨e, by simp [mapME, he, Bind.bind, Except.bind]⟩
    · cases hfa : f a with
      | error e2 => exact ⟨e2, by simp [mapME, hfa, Bind.bind, Except.bind]⟩
      | ok b =>
        obtain ⟨e', he'⟩ := mapME_error_of_mem f l x hx' ⟨e, he⟩
        exact ⟨e', by simp [mapME, hfa, he', Bind.bind, Except.bind]⟩

/-- C1 (counterexample): for `"foo"|answer in "bar"|answer|mapby("column")`
extraction does NOT return only `Direct("foo")` and `Nested("bar","column")`:
it also returns the bare parent slug `"bar"` as a direct identifier (as the
source file's own doc comment states), so the claimed two-element result is
wrong. -/
theorem extraction_example_counterexample :
    getDependenciesFromJexl astExample
        = [some "foo", some "bar", some "bar.column"] ∧
    some "bar" ∈ getDependenciesFromJexl astExample ∧
    getDependenciesFromJexl astExample ≠ [some "foo", some "bar.column"] := by
  decide

/-- C1 (amended): for `"foo"|answer in "bar"|answer|mapby("column")`
extraction returns exactly `Direct("foo")`, `Direct("bar")` and
`Nested("bar","column")`, in that order, and no other identifiers. -/
theorem extraction_example_deps :
    getDependenciesFromJexl astExample
      = [some "foo", some "bar", some "bar.column"] := by
  decide

/-- C5 (counterexample): for `"bar"|answer|mapby("column") in "foo"|answer`
the nested identifier `bar.column` is discovered in the expression before
`foo`, yet the implementation emits it last — all answer-derived identifiers
precede all mapby-derived ones — so the output order is not the
first-occurrence order of discovery in the expression. -/
theorem extraction_order_counterexample :
    getDependenciesFromJexl astSwapped
        = [some "bar", some "foo", some "bar.column"] ∧
    specOrderedDeps astSwapped
        = [some "bar.column", some "bar", some "foo"] ∧
    getDependenciesFromJexl astSwapped ≠ specOrderedDeps astSwapped := by
  decide

/-- C5 (amended): extraction is deduplicated — two identifiers are equal iff
their rendered form is equal, the first occurrence is kept and the result has
no duplicates — but the order is: all direct (answer-derived) identifiers in
discovery order, then all nested (mapby-derived) identifiers in discovery
order.  An expression referencing `"foo"|answer` twice yields a single
entry. -/
theorem extraction_dedup :
    (∀ root : JexlNode, (getDependenciesFromJexl root).Nodup) ∧
    (∀ (root : JexlNode) (s : Option String),
        s ∈ getDependenciesFromJexl root ↔
          s ∈ (answerTransforms root).map directValue
              ++ (mapbyTransforms root).map (fun t => some (nestedValue t))) ∧
    getDependenciesFromJexl astFooTwice = [some "foo"] ∧
    getDependenciesFromJexl astSwapped
      = [some "bar", some "foo", some "bar.column"] :=
  ⟨fun _ => nodup_jsSetDedup _, fun _ s => mem_jsSetDedup _ s, by decide,
    by decide⟩

/-- C5 (witness): the amended statement instantiated on the
double-`"foo"|answer` expression. -/
theorem extraction_dedup_witness :
    (getDependenciesFromJexl astFooTwice).Nodup ∧
    (some "foo" ∈ getDependenciesFromJexl astFooTwice ↔
      some "foo" ∈ (answerTransforms astFooTwice).map directValue
          ++ (mapbyTransforms astFooTwice).map (fun t => some (nestedValue t))) :=
  ⟨extraction_dedup.1 astFooTwice, extraction_dedup.2.1 astFooTwice (some "foo")⟩

/-- C6: every identifier extraction emits comes either from an `answer`
transform or from a `mapby` transform whose first argument is itself an
`answer` transform; a mapby applied to anything else therefore contributes no
identifier to the result. -/
theorem mapby_requires_answer :
    ∀ (root : JexlNode) (s : Option String), s ∈ getDependenciesFromJexl root →
      (∃ t, t ∈ answerTransforms root ∧ s = directValue t) ∨
      (∃ t, t ∈ mapbyTransforms root ∧ isAnswerMapby t = true ∧
        s = some (nestedValue t)) := by
  intro root s hs
  rw [getDependenciesFromJexl, mem_jsSetDedup, List.mem_append] at hs
  rcases hs with h | h
  · obtain ⟨t, ht, rfl⟩ := List.mem_map.mp h
    exact Or.inl ⟨t, ht, rfl⟩
  · obtain ⟨t, ht, rfl⟩ := List.mem_map.mp h
    exact Or.inr ⟨t, ht, (List.mem_filter.mp ht).2, rfl⟩

/-- C6 (witness): in `"a"|answer in "x"|mapby("c")` the mapby does not
qualify, and indeed the only emitted identifier is explained by an `answer`
transform. -/
theorem mapby_requires_answer_witness :
    some "a" ∈ getDependenciesFromJexl astPlainMapby ∧
    ((∃ t, t ∈ answerTransforms astPlainMapby ∧ some "a" = directValue t) ∨
      (∃ t, t ∈ mapbyTransforms astPlainMapby ∧ isAnswerMapby t = true ∧
        some "a" = some (nestedValue t))) :=
  ⟨by decide, mapby_requires_answer astPlainMapby (some "a") (by decide)⟩

/-- C9: for every qualifying mapby transform in the collected transform set,
the `answer` transform supplying the parent slug is itself among the collected
answer transforms, so the bare parent slug also appears in the extraction
result as a direct identifier, and the nested identifier renders as that
parent slug followed by a dot and the child slug. -/
theorem nested_parent_also_direct :
    ∀ (root t : JexlNode), t ∈ getTransforms root → isAnswerMapby t = true →
      ∃ a, a ∈ answerTransforms root ∧ t.args.get? 0 = some a ∧
        directValue a ∈ getDependenciesFromJexl root ∧
        nestedValue t = jsString (directValue a) ++ "."
          ++ jsString ((t.args.get? 1).bind JexlNode.value?) := by
  intro root t ht hq
  rw [isAnswerMapby] at hq
  cases hget : t.args.get? 0 with
  | none => rw [hget] at hq; simp at hq
  | some a =>
    rw [hget] at hq
    simp only [Bool.and_eq_true, beq_iff_eq] at hq
    obtain ⟨-, hfc, hname⟩ := hq
    have hmemargs : a ∈ t.args := List.get?_mem hget
    have haroot : a ∈ getTransforms root := argClosure root t a ht hmemargs hfc
    have hans : a ∈ answerTransforms root :=
      List.mem_filter.mpr ⟨haroot, by simp [isAnswer, hname]⟩
    have hget' : t.args[0]? = some a := List.get?_eq_getElem? .. ▸ hget
    refine ⟨a, hans, rfl, ?_, ?_⟩
    · rw [getDependenciesFromJexl, mem_jsSetDedup, List.mem_append]
      exact Or.inl (List.mem_map_of_mem directValue hans)
    · simp [nestedValue, directValue, hget']

/-- C9 (witness): the mapby of the canonical example, whose parent slug
`"bar"` indeed also appears directly. -/
theorem nested_parent_also_direct_witness :
    (mapbyExample ∈ getTransforms astExample ∧
      isAnswerMapby mapbyExample = true) ∧
    (∃ a, a ∈ answerTransforms astExample ∧
      mapbyExample.args.get? 0 = some a ∧
      directValue a ∈ getDependenciesFromJexl astExample ∧
      nestedValue mapbyExample = jsString (directValue a) ++ "."
        ++ jsString ((mapbyExample.args.get? 1).bind JexlNode.value?)) :=
  ⟨⟨List.Mem.tail _ (List.Mem.head _), rfl⟩,
    nested_parent_also_direct astExample mapbyExample
      (List.Mem.tail _ (List.Mem.head _)) rfl⟩

/-- C2: resolving a direct identifier whose slug has no field in the document
throws the `findField` assertion error, which names the missing slug, the
document's `uuid` and the original expression text; and any step's error makes
the whole resolution loop throw, so a missing field is never silently dropped
from an ok result. -/
theorem direct_missing_field_fails :
    (∀ (doc : Document) (expr slug : String),
        jsSplitDot slug = [slug] →
        Document.findField doc slug = none →
        resolveSlug doc expr false (some slug)
          = .error (.fieldNotFound slug doc.uuid expr)) ∧
    (∀ (doc : Document) (expr : String) (flag : Bool)
        (slugs : List (Option String)) (s : Option String) (e : DepError),
        s ∈ slugs → resolveSlug doc expr flag s = .error e →
        ∃ e2, mapME (resolveSlug doc expr flag) slugs = .error e2) := by
  constructor
  · intro doc expr slug hsplit hmiss
    simp [resolveSlug, hsplit, jsTruthyStr, findField, hmiss, Bind.bind,
      Except.bind]
  · intro doc expr flag slugs s e hmem herr
    exact mapME_error_of_mem _ slugs s hmem ⟨e, herr⟩

/-- C2 (witness): the missing slug `x` in an empty document. -/
theorem direct_missing_field_fails_witness :
    (jsSplitDot "x" = ["x"] ∧
      Document.findField (Document.mk "d" []) "x" = none ∧
      resolveSlug (Document.mk "d" []) "e" false (some "x")
        = .error (.fieldNotFound "x" "d" "e")) ∧
    (some "x" ∈ ([some "x"] : List (Option String)) ∧
      ∃ e2, mapME (resolveSlug (Document.mk "d" []) "e" false)
        [some "x"] = .error e2) := by
  have h1 := direct_missing_field_fails.1 (Document.mk "d" []) "e" "x"
    (by decide) rfl
  exact ⟨⟨by decide, rfl, h1⟩,
    List.mem_cons_self _ _,
    direct_missing_field_fails.2 (Document.mk "d" []) "e" false [some "x"]
      (some "x") _ (List.mem_cons_self _ _) h1⟩

/-- C3: resolving a nested identifier `parent.child` in All mode yields the
parent field followed by the child field of every row of the parent's value
(so only the parent when the row sequence is empty), and only the parent field
when the parent's value is absent. -/
theorem nested_all_mode_resolution :
    (∀ (doc : Document) (expr p c slug : String) (f : Field)
        (rs : List Document) (children : List Field),
        jsSplitDot slug = [p, c] → c ≠ "" →
        Document.findField doc p = some f →
        f.value = .rows rs →
        mapME (fun row => findField row c expr) rs = .ok children →
        resolveSlug doc expr false (some slug)
          = .ok (some f :: children.map some)) ∧
    (∀ (doc : Document) (expr p c slug : String) (f : Field),
        jsSplitDot slug = [p, c] →
        Document.findField doc p = some f →
        f.value = .null →
        resolveSlug doc expr false (some slug) = .ok [some f]) := by
  constructor
  · intro doc expr p c slug f rs children hsplit hc hfind hval hchildren
    have hfof : findField doc p expr = .ok f := by simp [findField, hfind]
    simp [resolveSlug, hsplit, jsTruthyStr, hc, hfof, hval,
      FieldValue.truthy, hchildren, Bind.bind, Except.bind, pure, Except.pure]
  · intro doc expr p c slug f hsplit hfind hval
    have hfof : findField doc p expr = .ok f := by simp [findField, hfind]
    simp [resolveSlug, hsplit, jsTruthyStr, hfof, hval,
      FieldValue.truthy, Bind.bind, Except.bind, pure, Except.pure]

/-- C3 (witness): `bar.column` against the three-row example document, and
`tbl.c` against a document whose table field has an absent value. -/
theorem nested_all_mode_resolution_witness :
    (jsSplitDot "bar.column" = ["bar", "column"] ∧ ("column" : String) ≠ "" ∧
      Document.findField docExample "bar" = some fieldBar ∧
      fieldBar.value = .rows exampleRows ∧
      mapME (fun row => findField row "column" "e") exampleRows
        = .ok [fieldColumn1, fieldColumn2, fieldColumn3] ∧
      resolveSlug docExample "e" false (some "bar.column")
        = .ok [some fieldBar, some fieldColumn1, some fieldColumn2,
               some fieldColumn3]) ∧
    (jsSplitDot "tbl.c" = ["tbl", "c"] ∧
      Document.findField docNull "tbl" = some fieldTblNull ∧
      fieldTblNull.value = .null ∧
      resolveSlug docNull "e" false (some "tbl.c")
        = .ok [some fieldTblNull]) := by
  refine ⟨⟨by decide, by decide, rfl, rfl, rfl, ?_⟩,
    by decide, rfl, rfl, ?_⟩
  · exact nested_all_mode_resolution.1 docExample "e" "bar" "column"
      "bar.column" fieldBar exampleRows
      [fieldColumn1, fieldColumn2, fieldColumn3] (by decide) (by decide)
      rfl rfl rfl
  · exact nested_all_mode_resolution.2 docNull "e" "tbl" "c" "tbl.c"
      fieldTblNull (by decide) rfl rfl

/-- C4 (counterexample): against the example document, the expression
`"bar"|answer|mapby("column")` (whose extracted slugs are `bar` and
`bar.column`) resolves to a field sequence containing the `bar` field twice —
the final sequence is not deduplicated by field identity. -/
theorem field_dedup_counterexample :
    dependencies docExample (fun _ => mapbyExample) (some "e") false
      = .ok [some fieldBar, some fieldBar, some fieldColumn1,
             some fieldColumn2, some fieldColumn3] ∧
    ¬ ([some fieldBar, some fieldBar, some fieldColumn1, some fieldColumn2,
        some fieldColumn3] : List (Option Field)).Nodup := by
  constructor
  · rfl
  · intro h
    rw [List.nodup_cons] at h
    exact h.1 (List.mem_cons_self _ _)

/-- C4 (amended): the extracted slug list is deduplicated but the resolved
field sequence is not: each identifier contributes its resolved fields in
order, so a field reachable via more than one identifier (here the `bar`
table field, reached directly and as nested parent) appears once per
occurrence. -/
theorem resolution_keeps_duplicates :
    dependencies docExample (fun _ => mapbyExample) (some "e") false
      = .ok [some fieldBar, some fieldBar, some fieldColumn1,
             some fieldColumn2, some fieldColumn3] := by
  rfl

/-- C7: `nestedDependencyParents` is exactly `dependencies` with
`onlyNestedParents = true`; in that mode each slug contributes either a
filtered-out `null` (direct identifiers, without any field lookup), or
exactly its resolved parent field (nested identifiers, no per-row child
fields), or throws; on the canonical example the result is exactly the
resolved `bar` field. -/
theorem nestedDependencyParents_spec :
    (∀ (doc : Document) (getAST : String → JexlNode) (e : Option String),
        nestedDependencyParents doc getAST e = dependencies doc getAST e true) ∧
    (∀ (doc : Document) (expr slug : String),
        resolveSlug doc expr true (some slug) = .ok [none] ∨
        (∃ f c, resolveSlug doc expr true (some slug) = .ok [some f] ∧
          (jsSplitDot slug)[1]? = some c ∧ c ≠ "" ∧
          Document.findField doc ((jsSplitDot slug).head?.getD "") = some f) ∨
        (∃ e2, resolveSlug doc expr true (some slug) = .error e2)) ∧
    nestedDependencyParents docExample (fun _ => astExample) (some "e")
      = .ok [some fieldBar] := by
  refine ⟨fun _ _ _ => rfl, ?_, rfl⟩
  intro doc expr slug
  cases hns : (jsSplitDot slug)[1]? with
  | none =>
    left
    simp [resolveSlug, hns, jsTruthyStr]
  | some c =>
    by_cases hc : c = ""
    · left
      simp [resolveSlug, hns, jsTruthyStr, hc]
    · cases hf : Document.findField doc ((jsSplitDot slug).head?.getD "") with
      | none =>
        right; right
        refine ⟨.fieldNotFound ((jsSplitDot slug).head?.getD "") doc.uuid
          expr, ?_⟩
        have hfof : findField doc ((jsSplitDot slug).head?.getD "") expr
            = .error (.fieldNotFound ((jsSplitDot slug).head?.getD "")
              doc.uuid expr) := by
          simp [findField, hf]
        simp [resolveSlug, hns, jsTruthyStr, hc, hfof, Bind.bind,
          Except.bind]
      | some f =>
        right; left
        refine ⟨f, c, ?_, rfl, hc, rfl⟩
        have hfof : findField doc ((jsSplitDot slug).head?.getD "") expr
            = .ok f := by
          simp [findField, hf]
        simp [resolveSlug, hns, jsTruthyStr, hc, hfof, Bind.bind,
          Except.bind, pure, Except.pure]

/-- C7 (witness): the trichotomy instantiated on the nested slug
`bar.column` of the example document. -/
theorem nestedDependencyParents_spec_witness :
    resolveSlug docExample "e" true (some "bar.column") = .ok [none] ∨
    (∃ f c, resolveSlug docExample "e" true (some "bar.column")
        = .ok [some f] ∧
      (jsSplitDot "bar.column")[1]? = some c ∧ c ≠ "" ∧
      Document.findField docExample
        ((jsSplitDot "bar.column").head?.getD "") = some f) ∨
    (∃ e2, resolveSlug docExample "e" true (some "bar.column")
      = .error e2) :=
  nestedDependencyParents_spec.2.1 docExample "e" "bar.column"

/-- C8: an absent (`null`/`undefined`) or empty expression is not an error:
`dependencies` returns an empty sequence for every document, every parser and
both modes — in particular independently of whatever extraction or field
lookup would produce. -/
theorem empty_expression_no_deps :
    ∀ (doc : Document) (getAST : String → JexlNode) (flag : Bool),
      dependencies doc getAST none flag = .ok [] ∧
      dependencies doc getAST (some "") flag = .ok [] := by
  intro doc getAST flag
  exact ⟨rfl, rfl⟩

/-- C10: a successful `dependencies` computation never returns a sequence
containing a `null`/`undefined` entry: the final `filter(Boolean)` removes
every falsy resolution result. -/
theorem no_null_entries :
    ∀ (doc : Document) (getAST : String → JexlNode) (e : Option String)
      (flag : Bool) (l : List (Option Field)),
      dependencies doc getAST e flag = .ok l → ∀ o ∈ l, o ≠ none := by
  intro doc getAST e flag l h o ho
  cases e with
  | none =>
    rw [dependencies] at h
    cases h
    simp at ho
  | some expr =>
    rw [dependencies] at h
    by_cases hexpr : expr = ""
    · rw [if_pos hexpr] at h
      cases h
      simp at ho
    · rw [if_neg hexpr] at h
      simp only [] at h
      cases hm : mapME (resolveSlug doc expr flag)
          (getDependenciesFromJexl (getAST expr)) with
      | error e2 =>
        simp only [hm, Bind.bind, Except.bind] at h
        exact absurd h (by simp)
      | ok resolved =>
        simp only [hm, Bind.bind, Except.bind, pure, Except.pure,
          Except.ok.injEq] at h
        subst h
        have hp := List.of_mem_filter ho
        intro hnone
        rw [hnone] at hp
        simp at hp

/-- C10 (witness): an entry of the concretely computed example result is not
null. -/
theorem no_null_entries_witness :
    dependencies docExample (fun _ => astExample) (some "expr1") false
      = .ok exampleDeps ∧
    some fieldFoo ≠ (none : Option Field) :=
  ⟨rfl, no_null_entries docExample (fun _ => astExample) (some "expr1") false
    exampleDeps rfl (some fieldFoo) (List.Mem.head _)⟩

end Caluma
